import Mathlib

/-!
Verification of the conversational entity-linking orchestrator
`src/REL/crel/conv_el.py` (class `ConvEL`).

The module sequences calls to external pretrained models (mention detector,
entity disambiguator, personal-entity-mention detector/scorer, pre/post
processors).  Those models are opaque: we embed them as an explicit record of
oracle functions (`Models`) and translate the orchestration code faithfully.

Python-level details that matter to the claims are modelled explicitly:
* input conversations are arbitrary Python values (`PyVal`) so that the
  structural validation of `_error_check` is expressible;
* `assert` failures and `KeyError`s become an explicit error type (`PyErr`);
  Python distinguishes the assertion sites only by their messages, which we
  model structurally in `AssertMsg`;
* Python `dict` update/overwrite semantics are modelled by association lists
  where the *last* binding for a key wins (`dictLookup`, `pem2result`).
-/

set_option autoImplicit false

namespace ConvEL

/-- Python values, as far as this module ever inspects them.  A `dict` is an
insertion-ordered list of string-keyed entries (the module only ever uses
string keys). -/
inductive PyVal : Type where
  | str : String → PyVal
  | int : Int → PyVal
  | list : List PyVal → PyVal
  | dict : List (String × PyVal) → PyVal

/-- The contents of the `assert` messages appearing in the source, modelled
structurally.  `speaker got` is the f-string
`'Speaker should be either "USER" or "SYSTEM", but got {...}'` (lines 52-55 and
139-142); `singlePem` is
`"Current implementation can handle only one target PEM at a time"` (lines
96-98); the remaining asserts are bare (no message). -/
inductive AssertMsg : Type where
  | speaker : PyVal → AssertMsg
  | singlePem : AssertMsg

/-- Python exceptions this module can raise: `AssertionError` (with optional
message), `KeyError` (with the missing key) and `TypeError` (subscripting a
non-dict; unreachable after validation, kept for faithfulness). -/
inductive PyErr : Type where
  | assertionError : Option AssertMsg → PyErr
  | keyError : String → PyErr
  | typeError : PyErr

/-- One result of `bert_md.md(utt)`; only elements `r[0]` (start) and `r[1]`
(length) are ever read (line 63). -/
structure MDResult where
  start : Int
  len : Int

/-- One entity-disambiguation result as returned by `ed` (a list); elements
`r[0]`..`r[3]` are start, length, mention, entity (lines 63-71), `rest` is any
further payload, never inspected. -/
structure EDResult where
  start : Int
  len : Int
  mention : String
  entity : String
  rest : List PyVal

/-- One personal-entity-mention detector result `[start_pos, length, pem]`
(line 85 unpacks exactly three elements). -/
structure PEMResult where
  start : Int
  len : Int
  pem : String
deriving DecidableEq

/-- One record of `postprocess.get_results(...)`; the source reads exactly the
keys `"personal_entity_mention"` and `"mention"` (lines 113-115). -/
structure PEOutput where
  personal_entity_mention : String
  mention : String
deriving DecidableEq

/-- A produced annotation `[start_pos, length, mention, entity]`
(lines 71 and 117-119). -/
structure AnnRec where
  start : Int
  len : Int
  mention : String
  entity : String
deriving DecidableEq

/-- One record of `self.conv_hist_for_pe`: a dict that acquires keys
`"speaker"`, `"utterance"` (lines 145-147) and possibly `"mentions"` (line 66)
and `"pems"` (lines 86-88, 109).  Absent keys are `none`. -/
structure HistRecord where
  speaker : PyVal
  utterance : PyVal
  mentions : Option (List String)
  pems : Option (List String)

/-- The mutable fields of a `ConvEL` object: `self.conv_hist_for_pe` and
`self.ment2ent` (lines 34-38).  `ment2ent` is a Python dict built only by
`update`; we model it as the list of writes in order, looked up by
`dictLookup` (last write wins, matching dict overwrite semantics). -/
structure ConvState where
  conv_hist_for_pe : List HistRecord
  ment2ent : List (String × String)

/-- The external pretrained models and helpers, as opaque oracles:
`bert_md.md`, `response_model.generate_response`, `pemd.pem_detector`,
`preprocess.get_tokens_with_info`, `preprocess.get_input_of_pe_linking`,
`eemd.get_scores`, `postprocess.get_results`, and the configured threshold.
`T`, `I`, `S`, `TH` are the (opaque) types of token infos, scorer inputs,
scores and the threshold. -/
structure Models (T I S TH : Type) where
  md : PyVal → List MDResult
  genResponse : PyVal → List (List Int) → List EDResult
  pemDetector : PyVal → List PEMResult
  getTokensWithInfo : List HistRecord → T
  getInputOfPeLinking : T → List I
  getScores : I → S
  threshold : TH
  getResults : I → List HistRecord → TH → S → List PEOutput

/-- One output record of `annotate`: the fresh dict
`{"speaker": ..., "utterance": ...}` built at line 143, to which an
`"annotations"` key is added for USER turns at line 152 (`none` = key
absent). -/
structure OutRec where
  speaker : PyVal
  utterance : PyVal
  annotations : Option (List AnnRec)

/-- First entry of a dict with the given key (Python dicts have unique keys,
so first = the entry). -/
def dictFind? (entries : List (String × PyVal)) (k : String) : Option PyVal :=
  (entries.find? (fun p => p.1 == k)).map (fun p => p.2)

/-- Python subscript `v[k]`: `KeyError` on a missing key, `TypeError` when `v`
is not a dict. -/
def pyGet (v : PyVal) (k : String) : Except PyErr PyVal :=
  match v with
  | .dict entries =>
    match dictFind? entries k with
    | some x => .ok x
    | none => .error (.keyError k)
  | _ => .error .typeError

/-- `turn["speaker"] in ["USER", "SYSTEM"]` (value equality against the two
string literals; non-strings compare unequal). -/
def isUserOrSystem : PyVal → Bool
  | .str s => s == "USER" || s == "SYSTEM"
  | _ => false

/-- `turn["speaker"] == "USER"` (line 149). -/
def isUser : PyVal → Bool
  | .str s => s == "USER"
  | _ => false

/-- `set(turn.keys()) == {"speaker", "utterance"}` (line 51), decomposed as:
every key is one of the two, and both occur. -/
def keySetOK (ks : List String) : Bool :=
  ks.all (fun k => k == "speaker" || k == "utterance") &&
    ks.any (fun k => k == "speaker") && ks.any (fun k => k == "utterance")

/-- Lookup in the `ment2ent` write list: Python dict semantics, the last
write for a key wins (line 67-69: `update` overwrites). -/
def dictLookup (m : List (String × String)) (k : String) : Option String :=
  (m.reverse.find? (fun q => q.1 == k)).map (fun q => q.2)

/-- `pem2result[p]` for `pem2result = {r[2]: r for r in pem_results}`
(line 80): dict-comprehension, the last result with pem text `p` wins. -/
def pem2result (rs : List PEMResult) (p : String) : Option PEMResult :=
  rs.reverse.find? (fun r => r.pem == p)

/-- `self.conv_hist_for_pe[-1]["pems"] = ...` — overwrite the `pems` field of
the last history record (identity on an empty history, which the orchestrator
never produces at these call sites). -/
def setLastPems (p : Option (List String)) : List HistRecord → List HistRecord
  | [] => []
  | [r] => [{ r with pems := p }]
  | r :: s :: rs => r :: setLastPems p (s :: rs)

/-- `self.conv_hist_for_pe[-1]["mentions"] = ...` (line 66). -/
def setLastMentions (p : Option (List String)) : List HistRecord → List HistRecord
  | [] => []
  | [r] => [{ r with mentions := p }]
  | r :: s :: rs => r :: setLastMentions p (s :: rs)

/-- The body of `_error_check`'s per-turn checks (lines 49-55): turn must be a
dict, its key set must be exactly `{"speaker", "utterance"}`, and the speaker
must be one of the two literals.  The first failing assert aborts. -/
def checkTurn (turn : PyVal) : Except PyErr Unit :=
  match turn with
  | .dict entries =>
    if keySetOK (entries.map (fun p => p.1)) then
      match dictFind? entries "speaker" with
      | some spk =>
        if isUserOrSystem spk then .ok ()
        else .error (.assertionError (some (.speaker spk)))
      | none => .error (.keyError "speaker")
    else .error (.assertionError none)
  | _ => .error (.assertionError none)

/-- The `for turn in conv` loop of `_error_check`. -/
def checkTurns : List PyVal → Except PyErr Unit
  | [] => .ok ()
  | t :: ts =>
    match checkTurn t with
    | .error e => .error e
    | .ok _ => checkTurns ts

/-- `_error_check` (lines 47-55): `assert type(conv) == list`, then the
per-turn checks. -/
def error_check : PyVal → Except PyErr Unit
  | .list turns => checkTurns turns
  | _ => .error (.assertionError none)

/-- The claim-side validity predicate, written out as C2 enumerates it: the
input is a list, every element is a dict with key set exactly
`{"speaker", "utterance"}`, and every speaker value is the string `"USER"` or
`"SYSTEM"`. -/
def validTurnB : PyVal → Bool
  | .dict entries =>
    keySetOK (entries.map (fun p => p.1)) &&
      (match dictFind? entries "speaker" with
       | some (.str s) => s == "USER" || s == "SYSTEM"
       | _ => false)
  | _ => false

/-- See `validTurnB`. -/
def validB : PyVal → Bool
  | .list turns => turns.all validTurnB
  | _ => false

section Pipeline

variable {T I S TH : Type}

/-- `self.ed(text, spans)` (lines 156-159).  The tuple→list conversion is the
identity in this model, since results are already structured. -/
def ed (o : Models T I S TH) (text : PyVal) (spans : List (List Int)) : List EDResult :=
  o.genResponse text spans

/-- The entity-disambiguation results computed in `_el` (lines 60-64):
mention detection, span extraction, disambiguation. -/
def elResults (o : Models T I S TH) (utt : PyVal) : List EDResult :=
  ed o utt ((o.md utt).map (fun r => [r.start, r.len]))

/-- `_el` (lines 57-71): record mentions in the last history record, merge
`{r[2]: r[3]}` into `ment2ent` (overwriting), and return the four-field
prefixes `r[:4]` of the results. -/
def el (o : Models T I S TH) (utt : PyVal) (st : ConvState) : List AnnRec × ConvState :=
  let el_results := elResults o utt
  ( el_results.map (fun r => ⟨r.start, r.len, r.mention, r.entity⟩),
    ⟨ setLastMentions (some (el_results.map (fun r => r.mention))) st.conv_hist_for_pe,
      st.ment2ent ++ el_results.map (fun r => (r.mention, r.entity)) ⟩ )

/-- The preprocessed input computed for one target PEM (lines 86-94): the
last history record's `"pems"` is set to exactly `[pr.pem]` and the result is
`get_input_of_pe_linking(get_tokens_with_info(...))`. -/
def peInput (o : Models T I S TH) (h : List HistRecord) (pr : PEMResult) : List I :=
  o.getInputOfPeLinking (o.getTokensWithInfo (setLastPems (some [pr.pem]) h))

/-- The `for _, _, pem in pem_results` loop of `_pe` (lines 84-107): for each
target PEM, overwrite the last record's `"pems"`, preprocess, `assert
len(input_data) == 1` (abort otherwise), score, and append the
post-processing results. -/
def peLoop (o : Models T I S TH) :
    List PEMResult → List HistRecord → List PEOutput →
    Except PyErr (List PEOutput × List HistRecord)
  | [], h, acc => .ok (acc, h)
  | pr :: prs, h, acc =>
    let h1 := setLastPems (some [pr.pem]) h
    match peInput o h pr with
    | [d] => peLoop o prs h1 (acc ++ o.getResults d h1 o.threshold (o.getScores d))
    | _ => .error (.assertionError (some .singlePem))

/-- Step 3 of `_pe` (lines 112-119): for each accepted output, look up
`pem2result[pem]` and `self.ment2ent[eem]` (a missing key raises `KeyError`)
and emit `[start_pos, length, PEM, entity]`. -/
def peResolve (pem_results : List PEMResult) (m2e : List (String × String)) :
    List PEOutput → Except PyErr (List AnnRec)
  | [] => .ok []
  | r :: rs =>
    match pem2result pem_results r.personal_entity_mention with
    | none => .error (.keyError r.personal_entity_mention)
    | some pr =>
      match dictLookup m2e r.mention with
      | none => .error (.keyError r.mention)
      | some ent =>
        match peResolve pem_results m2e rs with
        | .error e => .error e
        | .ok rest => .ok (⟨pr.start, pr.len, pr.pem, ent⟩ :: rest)

/-- `_pe` (lines 73-121): PEM detection, the per-PEM loop, clearing the last
record's `"pems"` (line 109), then entity resolution. -/
def pe (o : Models T I S TH) (utt : PyVal) (st : ConvState) :
    Except PyErr (List AnnRec × ConvState) :=
  let pem_results := o.pemDetector utt
  match peLoop o pem_results st.conv_hist_for_pe [] with
  | .error e => .error e
  | .ok (outputs, h1) =>
    let h2 := setLastPems (some []) h1
    match peResolve pem_results st.ment2ent outputs with
    | .error e => .error e
    | .ok ret => .ok (ret, ⟨h2, st.ment2ent⟩)

/-- Lines 145-147: append `{}` to `conv_hist_for_pe` and fill in its
`"speaker"` and `"utterance"` keys. -/
def pushTurn (st : ConvState) (spk utt : PyVal) : ConvState :=
  ⟨st.conv_hist_for_pe ++ [⟨spk, utt, none, none⟩], st.ment2ent⟩

/-- One iteration of `annotate`'s `for turn in conv` loop (lines 137-152):
subscript lookups, the speaker re-assert, the fresh output record, the new
history record, and for USER turns the `_el`/`_pe` calls and the
`"annotations"` assignment. -/
def annotateStep (o : Models T I S TH) (acc : List OutRec × ConvState) (turn : PyVal) :
    Except PyErr (List OutRec × ConvState) :=
  match pyGet turn "utterance" with
  | .error e => .error e
  | .ok utt =>
    match pyGet turn "speaker" with
    | .error e => .error e
    | .ok spk =>
      if isUserOrSystem spk then
        if isUser spk then
          match el o utt (pushTurn acc.2 spk utt) with
          | (elAnns, st2) =>
            match pe o utt st2 with
            | .error e => .error e
            | .ok (peAnns, st3) =>
              .ok (acc.1 ++ [⟨spk, utt, some (elAnns ++ peAnns)⟩], st3)
        else
          .ok (acc.1 ++ [⟨spk, utt, none⟩], pushTurn acc.2 spk utt)
      else .error (.assertionError (some (.speaker spk)))

/-- The whole `for turn in conv` loop of `annotate`. -/
def annotateLoop (o : Models T I S TH) :
    List PyVal → List OutRec × ConvState → Except PyErr (List OutRec × ConvState)
  | [], acc => .ok acc
  | t :: ts, acc =>
    match annotateStep o acc t with
    | .error e => .error e
    | .ok acc1 => annotateLoop o ts acc1

/-- `annotate` (lines 123-154): validate, reset `ret`, `conv_hist_for_pe` and
`ment2ent` (the incoming state `st` is overwritten before any use), then
process the turns.  The returned `ConvState` is the value of the object's
fields after the call. -/
def annotate (o : Models T I S TH) (st : ConvState) (conv : PyVal) :
    Except PyErr (List OutRec × ConvState) :=
  let _ := st  -- lines 134-135: the incoming state is reset before any read
  match error_check conv with
  | .error e => .error e
  | .ok _ =>
    match conv with
    | .list turns => annotateLoop o turns ([], ⟨[], []⟩)
    | _ => .error .typeError  -- unreachable: `error_check` only passes lists

end Pipeline

/-! ### Derived definitions used to state the claims -/

/-- Classifies the errors raised by the structural input validation: the bare
asserts of `_error_check` (type and key-set checks) and the speaker asserts
(in `_error_check` and re-checked in `annotate`'s loop).  The only other
assertion in the module is `_pe`'s single-PEM assertion, whose distinct
message makes it distinguishable in Python as well. -/
def isValidationError : PyErr → Bool
  | .assertionError none => true
  | .assertionError (some (.speaker _)) => true
  | _ => false

section Derived

variable {T I S TH : Type}

/-- The entity-disambiguation results contributed by one input turn: those of
`_el` on the turn's utterance when the speaker is USER, nothing otherwise. -/
def turnElResults (o : Models T I S TH) (t : PyVal) : List EDResult :=
  match pyGet t "speaker", pyGet t "utterance" with
  | .ok spk, .ok utt => if isUser spk then elResults o utt else []
  | _, _ => []

/-- All entity-disambiguation results of a conversation, in processing
order. -/
def allEl (o : Models T I S TH) : List PyVal → List EDResult
  | [] => []
  | t :: ts => turnElResults o t ++ allEl o ts

/-- The `ment2ent` contents produced by processing the given turns: one
`(mention, entity)` write per disambiguation result, in order (lines
67-69). -/
def m2eOf (o : Models T I S TH) (ts : List PyVal) : List (String × String) :=
  (allEl o ts).map (fun r => (r.mention, r.entity))

/-- The history record left behind by processing one turn: USER turns end the
turn with their mentions recorded and `pems` cleared to `[]` (lines 66, 109),
SYSTEM turns never acquire either key.  The fallback arm is never reached on
turns `annotate` accepts. -/
def histRecOf (o : Models T I S TH) (t : PyVal) : HistRecord :=
  match pyGet t "speaker", pyGet t "utterance" with
  | .ok spk, .ok utt =>
    if isUser spk then
      ⟨spk, utt, some ((elResults o utt).map (fun r => r.mention)), some []⟩
    else ⟨spk, utt, none, none⟩
  | _, _ => ⟨.str "", .str "", none, none⟩

/-- Full relation between an input turn and its output record: the record
carries the turn's speaker and utterance values, the speaker is one of the
two literals, the `"annotations"` key is present iff the speaker is USER, and
a present annotations list is the `_el` results followed by the `_pe` results
for this utterance (computed at the fold's intermediate states). -/
def turnRel (o : Models T I S TH) (t : PyVal) (r : OutRec) : Prop :=
  ∃ spk utt, pyGet t "speaker" = .ok spk ∧ pyGet t "utterance" = .ok utt ∧
    r.speaker = spk ∧ r.utterance = utt ∧
    (spk = .str "USER" ∨ spk = .str "SYSTEM") ∧
    (r.annotations.isSome ↔ spk = .str "USER") ∧
    (∀ anns, r.annotations = some anns →
      ∃ stA elAnns stB peAnns stC, el o utt stA = (elAnns, stB) ∧
        pe o utt stB = .ok (peAnns, stC) ∧ anns = elAnns ++ peAnns)

end Derived

/-- The part of `turnRel` claimed by C1: the output record carries the input
turn's speaker and utterance, and has an `"annotations"` key exactly when the
speaker is USER. -/
def carriesTurn (t : PyVal) (r : OutRec) : Prop :=
  ∃ spk utt, pyGet t "speaker" = .ok spk ∧ pyGet t "utterance" = .ok utt ∧
    r.speaker = spk ∧ r.utterance = utt ∧
    (r.annotations.isSome ↔ spk = .str "USER")

/-- The between-turns invariant of `conv_hist_for_pe` records (claim C9):
SYSTEM records never acquire `"mentions"` or `"pems"`, and USER records end
their turn with `"pems"` reset to the empty list. -/
def recInv (r : HistRecord) : Prop :=
  (r.speaker = .str "SYSTEM" → r.mentions = none ∧ r.pems = none) ∧
  (r.speaker = .str "USER" → r.pems = some [])

/-! ### Concrete fixtures used by witnesses and counterexamples -/

/-- Models whose detectors find nothing. -/
def oEmpty : Models Unit Unit Unit Unit where
  md _ := []
  genResponse _ _ := []
  pemDetector _ := []
  getTokensWithInfo _ := ()
  getInputOfPeLinking _ := []
  getScores _ := ()
  threshold := ()
  getResults _ _ _ _ := []

/-- Models whose PEM detector finds one personal mention but whose
preprocessor yields no scorer input, firing `_pe`'s single-PEM assertion. -/
def oPemAssert : Models Unit Unit Unit Unit where
  md _ := []
  genResponse _ _ := []
  pemDetector _ := [⟨0, 2, "my"⟩]
  getTokensWithInfo _ := ()
  getInputOfPeLinking _ := []
  getScores _ := ()
  threshold := ()
  getResults _ _ _ _ := []

/-- Models whose disambiguator returns two results with the same mention text
`"m"` and different entities. -/
def oDup : Models Unit Unit Unit Unit where
  md _ := []
  genResponse _ _ := [⟨0, 1, "m", "E1", []⟩, ⟨2, 1, "m", "E2", []⟩]
  pemDetector _ := []
  getTokensWithInfo _ := ()
  getInputOfPeLinking _ := []
  getScores _ := ()
  threshold := ()
  getResults _ _ _ _ := []

/-- Models that detect one personal mention `"it"` and accept one antecedent
with mention text `"dog"`. -/
def oPe : Models Unit Unit Unit Unit where
  md _ := []
  genResponse _ _ := []
  pemDetector _ := [⟨0, 2, "it"⟩]
  getTokensWithInfo _ := ()
  getInputOfPeLinking _ := [()]
  getScores _ := ()
  threshold := ()
  getResults _ _ _ _ := [⟨"it", "dog"⟩]

/-- A two-turn conversation: a USER turn and a SYSTEM turn. -/
def convW : PyVal := .list
  [ .dict [("speaker", .str "USER"), ("utterance", .str "hi")],
    .dict [("speaker", .str "SYSTEM"), ("utterance", .str "ok")] ]

/-- A one-USER-turn conversation. -/
def convU : PyVal := .list [.dict [("speaker", .str "USER"), ("utterance", .str "hi")]]

end ConvEL

/-! ### Helper lemmas about the history-record update helpers -/

namespace ConvEL

lemma setLastPems_append (p : Option (List String)) (r : HistRecord) :
    ∀ (h : List HistRecord), setLastPems p (h ++ [r]) = h ++ [{ r with pems := p }]
  | [] => rfl
  | [_] => rfl
  | a :: b :: t => by
    have ih := setLastPems_append p r (b :: t)
    simp only [List.cons_append] at ih ⊢
    simp only [setLastPems, ih]

lemma setLastMentions_append (p : Option (List String)) (r : HistRecord) :
    ∀ (h : List HistRecord), setLastMentions p (h ++ [r]) = h ++ [{ r with mentions := p }]
  | [] => rfl
  | [_] => rfl
  | a :: b :: t => by
    have ih := setLastMentions_append p r (b :: t)
    simp only [List.cons_append] at ih ⊢
    simp only [setLastMentions, ih]

lemma setLastPems_setLastPems (p q : Option (List String)) (h : List HistRecord) :
    setLastPems p (setLastPems q h) = setLastPems p h := by
  rcases List.eq_nil_or_concat h with rfl | ⟨h', r0, rfl⟩
  · rfl
  · simp [setLastPems_append]

lemma getLast?_setLastPems (p : Option (List String)) (h : List HistRecord)
    (hne : h ≠ []) : (setLastPems p h).getLast?.map HistRecord.pems = some p := by
  rcases List.eq_nil_or_concat h with rfl | ⟨h', r0, rfl⟩
  · exact absurd rfl hne
  · rw [List.concat_eq_append, setLastPems_append]
    simp [List.getLast?_concat]

/-! ### Lemmas about the personal-entity-linking step `_pe` -/

section PeLemmas

variable {T I S TH : Type} {o : Models T I S TH}

lemma peInput_setLastPems (q : Option (List String)) (h : List HistRecord)
    (pr : PEMResult) : peInput o (setLastPems q h) pr = peInput o h pr := by
  unfold peInput
  rw [setLastPems_setLastPems]

lemma peLoop_error_singlePem {prs : List PEMResult} {h : List HistRecord}
    {acc : List PEOutput} {e : PyErr} (hl : peLoop o prs h acc = .error e) :
    e = .assertionError (some .singlePem) := by
  induction prs generalizing h acc with
  | nil => exact absurd hl (by simp [peLoop])
  | cons pr prs ih =>
    rw [peLoop] at hl
    split at hl
    · exact ih hl
    · exact (Except.error.inj hl).symm

lemma peLoop_ok_hist {prs : List PEMResult} {h : List HistRecord}
    {acc os : List PEOutput} {h1 : List HistRecord}
    (hl : peLoop o prs h acc = .ok (os, h1)) :
    setLastPems (some []) h1 = setLastPems (some []) h := by
  induction prs generalizing h acc with
  | nil =>
    rw [peLoop] at hl
    cases hl
    rfl
  | cons pr prs ih =>
    rw [peLoop] at hl
    split at hl
    · rw [ih hl, setLastPems_setLastPems]
    · cases hl

lemma peLoop_singlePem_iff {prs : List PEMResult} {h : List HistRecord}
    {acc : List PEOutput} :
    peLoop o prs h acc = .error (.assertionError (some .singlePem)) ↔
      ∃ pr ∈ prs, (peInput o h pr).length ≠ 1 := by
  induction prs generalizing h acc with
  | nil => simp [peLoop]
  | cons pr prs ih =>
    rw [peLoop]
    split
    · rename_i d heq
      rw [ih]
      constructor
      · rintro ⟨x, hx, hlen⟩
        rw [peInput_setLastPems] at hlen
        exact ⟨x, List.mem_cons_of_mem _ hx, hlen⟩
      · rintro ⟨x, hx, hlen⟩
        rcases List.mem_cons.mp hx with rfl | hx
        · rw [heq] at hlen
          simp at hlen
        · exact ⟨x, hx, by rw [peInput_setLastPems]; exact hlen⟩
    · rename_i hne
      simp only [true_iff, eq_self_iff_true]
      refine ⟨pr, List.mem_cons_self _ _, ?_⟩
      cases hv : peInput o h pr with
      | nil => simp
      | cons d rest =>
        cases rest with
        | nil => exact absurd hv (hne d)
        | cons d2 rest2 => simp

end PeLemmas

/-! ### Lemmas about `peResolve` and `pe` -/

section PeResolveLemmas

variable {T I S TH : Type} {o : Models T I S TH}

lemma peResolve_ok_forall2 {pems : List PEMResult} {m2e : List (String × String)}
    {os : List PEOutput} {ret : List AnnRec}
    (h : peResolve pems m2e os = .ok ret) :
    List.Forall₂ (fun (r : PEOutput) (a : AnnRec) => ∃ pr ent,
      pem2result pems r.personal_entity_mention = some pr ∧
      dictLookup m2e r.mention = some ent ∧
      a = ⟨pr.start, pr.len, pr.pem, ent⟩) os ret := by
  induction os generalizing ret with
  | nil =>
    rw [peResolve] at h
    cases h
    exact List.Forall₂.nil
  | cons r rs ih =>
    rw [peResolve] at h
    split at h
    · cases h
    · rename_i pr hpr
      split at h
      · cases h
      · rename_i ent hent
        split at h
        · cases h
        · rename_i rest hrest
          cases h
          exact List.Forall₂.cons ⟨pr, ent, hpr, hent, rfl⟩ (ih hrest)

lemma peResolve_error_keyError {pems : List PEMResult} {m2e : List (String × String)}
    {os : List PEOutput} {e : PyErr}
    (h : peResolve pems m2e os = .error e) : ∃ k, e = .keyError k := by
  induction os generalizing e with
  | nil =>
    rw [peResolve] at h
    cases h
  | cons r rs ih =>
    rw [peResolve] at h
    split at h
    · exact ⟨r.personal_entity_mention, (Except.error.inj h).symm⟩
    · split at h
      · exact ⟨r.mention, (Except.error.inj h).symm⟩
      · split at h
        · rename_i e' he'
          cases h
          exact ih he'
        · cases h

lemma peResolve_error_iff {pems : List PEMResult} {m2e : List (String × String)}
    {os : List PEOutput} :
    (∃ e, peResolve pems m2e os = .error e) ↔
      ∃ r ∈ os, pem2result pems r.personal_entity_mention = none ∨
        dictLookup m2e r.mention = none := by
  induction os with
  | nil => simp [peResolve]
  | cons r rs ih =>
    rw [peResolve]
    split
    · rename_i hpr
      simp only [List.mem_cons]
      constructor
      · intro _
        exact ⟨r, Or.inl rfl, Or.inl hpr⟩
      · intro _
        exact ⟨.keyError r.personal_entity_mention, rfl⟩
    · rename_i pr hpr
      split
      · rename_i hent
        simp only [List.mem_cons]
        constructor
        · intro _
          exact ⟨r, Or.inl rfl, Or.inr hent⟩
        · intro _
          exact ⟨.keyError r.mention, rfl⟩
      · rename_i ent hent
        split
        · rename_i e' he'
          simp only [List.mem_cons]
          constructor
          · intro _
            rcases ih.mp ⟨e', he'⟩ with ⟨x, hx, hor⟩
            exact ⟨x, Or.inr hx, hor⟩
          · intro _
            exact ⟨e', rfl⟩
        · rename_i rest hrest
          simp only [List.mem_cons]
          constructor
          · rintro ⟨e, he⟩
            cases he
          · rintro ⟨x, hx, hor⟩
            rcases hx with rfl | hx
            · rcases hor with hbad | hbad
              · rw [hpr] at hbad; cases hbad
              · rw [hent] at hbad; cases hbad
            · rcases ih.mpr ⟨x, hx, hor⟩ with ⟨e, he⟩
              rw [he] at hrest
              cases hrest

end PeResolveLemmas

section PeTopLemmas

variable {T I S TH : Type} {o : Models T I S TH}

lemma pe_ok_state {utt : PyVal} {st : ConvState} {ret : List AnnRec} {st' : ConvState}
    (h : pe o utt st = .ok (ret, st')) :
    st'.conv_hist_for_pe = setLastPems (some []) st.conv_hist_for_pe ∧
      st'.ment2ent = st.ment2ent := by
  rw [pe] at h
  split at h
  · cases h
  · rename_i outputs h1 hl
    split at h
    · cases h
    · cases h
      exact ⟨peLoop_ok_hist hl, rfl⟩

lemma pe_ok_resolve {utt : PyVal} {st : ConvState} {ret : List AnnRec} {st' : ConvState}
    (h : pe o utt st = .ok (ret, st')) :
    ∃ outputs h1,
      peLoop o (o.pemDetector utt) st.conv_hist_for_pe [] = .ok (outputs, h1) ∧
      peResolve (o.pemDetector utt) st.ment2ent outputs = .ok ret := by
  rw [pe] at h
  split at h
  · cases h
  · rename_i outputs h1 hl
    split at h
    · cases h
    · rename_i ret' hr
      cases h
      exact ⟨outputs, h1, hl, hr⟩

lemma pe_error_cases {utt : PyVal} {st : ConvState} {e : PyErr}
    (h : pe o utt st = .error e) :
    e = .assertionError (some .singlePem) ∨ ∃ k, e = .keyError k := by
  rw [pe] at h
  split at h
  · rename_i e' hl
    cases h
    exact Or.inl (peLoop_error_singlePem hl)
  · rename_i outputs h1 hl
    split at h
    · rename_i e' hr
      cases h
      exact Or.inr (peResolve_error_keyError hr)
    · cases h

lemma pe_of_resolve_error {utt : PyVal} {st : ConvState} {outputs : List PEOutput}
    {h1 : List HistRecord} {e : PyErr}
    (hl : peLoop o (o.pemDetector utt) st.conv_hist_for_pe [] = .ok (outputs, h1))
    (hr : peResolve (o.pemDetector utt) st.ment2ent outputs = .error e) :
    pe o utt st = .error e := by
  rw [pe, hl]
  dsimp only
  rw [hr]

lemma pe_singlePem_iff {utt : PyVal} {st : ConvState} :
    pe o utt st = .error (.assertionError (some .singlePem)) ↔
      ∃ pr ∈ o.pemDetector utt, (peInput o st.conv_hist_for_pe pr).length ≠ 1 := by
  constructor
  · intro h
    rw [pe] at h
    split at h
    · rename_i e' hl
      cases h
      exact peLoop_singlePem_iff.mp hl
    · rename_i outputs h1 hl
      split at h
      · rename_i e' hr
        cases h
        rcases peResolve_error_keyError hr with ⟨k, hk⟩
        cases hk
      · cases h
  · intro hex
    have hl :
        peLoop o (o.pemDetector utt) st.conv_hist_for_pe [] =
          .error (.assertionError (some .singlePem)) :=
      peLoop_singlePem_iff.mpr hex
    rw [pe, hl]

end PeTopLemmas

/-! ### Lemmas about the structural validation -/

section ValidationLemmas

lemma find?_of_any {α : Type} (p : α → Bool) (l : List α) (h : l.any p = true) :
    ∃ x, l.find? p = some x := by
  induction l with
  | nil => simp at h
  | cons a l ih =>
    cases hp : p a with
    | true => exact ⟨a, by simp [List.find?, hp]⟩
    | false =>
      rw [List.any_cons, hp, Bool.false_or] at h
      rcases ih h with ⟨x, hx⟩
      exact ⟨x, by simp [List.find?, hp, hx]⟩

lemma any_map_eq {α β : Type} (f : α → β) (p : β → Bool) (l : List α) :
    (l.map f).any p = l.any (fun a => p (f a)) := by
  induction l with
  | nil => rfl
  | cons a l ih => simp [List.any_cons, ih]

lemma dictFind?_of_any {entries : List (String × PyVal)} {k : String}
    (h : (entries.map (fun p => p.1)).any (fun s => s == k) = true) :
    ∃ v, dictFind? entries k = some v := by
  rw [any_map_eq] at h
  rcases find?_of_any _ entries h with ⟨q, hq⟩
  exact ⟨q.2, by rw [dictFind?, hq]; rfl⟩

lemma keySetOK_speaker {entries : List (String × PyVal)}
    (hk : keySetOK (entries.map (fun p => p.1)) = true) :
    ∃ v, dictFind? entries "speaker" = some v := by
  rw [keySetOK, Bool.and_eq_true, Bool.and_eq_true] at hk
  exact dictFind?_of_any hk.1.2

lemma keySetOK_utterance {entries : List (String × PyVal)}
    (hk : keySetOK (entries.map (fun p => p.1)) = true) :
    ∃ v, dictFind? entries "utterance" = some v := by
  rw [keySetOK, Bool.and_eq_true, Bool.and_eq_true] at hk
  exact dictFind?_of_any hk.2

lemma checkTurn_ok_iff {t : PyVal} : checkTurn t = .ok () ↔ validTurnB t = true := by
  cases t with
  | dict entries =>
    rw [checkTurn, validTurnB]
    cases hk : keySetOK (entries.map (fun p => p.1)) with
    | false => simp
    | true =>
      simp only [if_true, Bool.true_and]
      cases hf : dictFind? entries "speaker" with
      | none => simp
      | some spk =>
        cases spk <;> simp [isUserOrSystem] <;> tauto
  | str s => simp [checkTurn, validTurnB]
  | int n => simp [checkTurn, validTurnB]
  | list l => simp [checkTurn, validTurnB]

lemma checkTurn_error_validation {t : PyVal} {e : PyErr}
    (h : checkTurn t = .error e) : isValidationError e = true := by
  cases t with
  | dict entries =>
    rw [checkTurn] at h
    split at h
    · rename_i hk
      split at h
      · rename_i spk hf
        split at h
        · cases h
        · cases h
          rfl
      · rename_i hf
        rcases keySetOK_speaker hk with ⟨v, hv⟩
        rw [hv] at hf
        cases hf
    · cases h
      rfl
  | str s => cases h; rfl
  | int n => cases h; rfl
  | list l => cases h; rfl

lemma checkTurns_ok_iff {ts : List PyVal} :
    checkTurns ts = .ok () ↔ ts.all validTurnB = true := by
  induction ts with
  | nil => simp [checkTurns]
  | cons t ts ih =>
    rw [checkTurns]
    split
    · rename_i e he
      have hvt : validTurnB t ≠ true := fun hv => by
        rw [checkTurn_ok_iff.mpr hv] at he
        cases he
      simp [List.all_cons, Bool.eq_false_iff.mpr hvt]
    · rename_i u he
      have hvt : validTurnB t = true := checkTurn_ok_iff.mp (by cases u; exact he)
      simp [List.all_cons, hvt, ih]

lemma checkTurns_error_validation {ts : List PyVal} {e : PyErr}
    (h : checkTurns ts = .error e) : isValidationError e = true := by
  induction ts with
  | nil =>
    rw [checkTurns] at h
    cases h
  | cons t ts ih =>
    rw [checkTurns] at h
    split at h
    · rename_i e' he
      cases h
      exact checkTurn_error_validation he
    · exact ih h

lemma error_check_ok_iff {conv : PyVal} :
    error_check conv = .ok () ↔ validB conv = true := by
  cases conv with
  | list turns => rw [error_check, validB]; exact checkTurns_ok_iff
  | str s => simp [error_check, validB]
  | int n => simp [error_check, validB]
  | dict d => simp [error_check, validB]

lemma error_check_error_validation {conv : PyVal} {e : PyErr}
    (h : error_check conv = .error e) : isValidationError e = true := by
  cases conv with
  | list turns => exact checkTurns_error_validation h
  | str s => cases h; rfl
  | int n => cases h; rfl
  | dict d => cases h; rfl

end ValidationLemmas

/-! ### The per-step and per-loop characterisation of `annotate` -/

section StepLemmas

variable {T I S TH : Type} {o : Models T I S TH}

lemma isUser_iff {v : PyVal} : isUser v = true ↔ v = .str "USER" := by
  cases v <;> simp [isUser]

lemma isUserOrSystem_iff {v : PyVal} :
    isUserOrSystem v = true ↔ v = .str "USER" ∨ v = .str "SYSTEM" := by
  cases v <;> simp [isUserOrSystem]

lemma el_eq (utt : PyVal) (st : ConvState) :
    el o utt st =
      ((elResults o utt).map (fun r => ⟨r.start, r.len, r.mention, r.entity⟩),
        ⟨setLastMentions (some ((elResults o utt).map (fun r => r.mention)))
            st.conv_hist_for_pe,
          st.ment2ent ++ (elResults o utt).map (fun r => (r.mention, r.entity))⟩) := rfl

lemma annotateStep_ok {acc acc' : List OutRec × ConvState} {t : PyVal}
    (h : annotateStep o acc t = .ok acc') :
    ∃ rec, acc'.1 = acc.1 ++ [rec] ∧ turnRel o t rec ∧
      acc'.2.ment2ent =
        acc.2.ment2ent ++ (turnElResults o t).map (fun r => (r.mention, r.entity)) ∧
      acc'.2.conv_hist_for_pe = acc.2.conv_hist_for_pe ++ [histRecOf o t] := by
  rw [annotateStep] at h
  split at h
  · cases h
  · rename_i utt hu
    split at h
    · cases h
    · rename_i spk hs
      split at h
      · rename_i hsys
        split at h
        · rename_i huser
          split at h
          · rename_i elAnns st2 hel
            split at h
            · cases h
            · rename_i peAnns st3 hpe
              cases h
              rw [el_eq] at hel
              have hel2 := (Prod.mk.injEq _ _ _ _).mp hel.symm
              have hst2 := hel2.2
              have hpes := pe_ok_state hpe
              refine ⟨⟨spk, utt, some (elAnns ++ peAnns)⟩, rfl, ?_, ?_, ?_⟩
              · refine ⟨spk, utt, hs, hu, rfl, rfl, isUserOrSystem_iff.mp hsys, ?_, ?_⟩
                · simp [isUser_iff.mp huser]
                · intro anns heq
                  cases heq
                  exact ⟨pushTurn acc.2 spk utt, elAnns, st2, peAnns, st3,
                    hel.symm ▸ rfl, hpe, rfl⟩
              · rw [hpes.2, hst2]
                simp [turnElResults, hs, hu, huser, pushTurn]
              · rw [hpes.1, hst2]
                dsimp only [pushTurn]
                rw [setLastMentions_append, setLastPems_append]
                simp [histRecOf, hs, hu, huser]
        · rename_i huser
          cases h
          refine ⟨⟨spk, utt, none⟩, rfl, ?_, ?_, ?_⟩
          · refine ⟨spk, utt, hs, hu, rfl, rfl, isUserOrSystem_iff.mp hsys, ?_, ?_⟩
            · have : spk ≠ .str "USER" := fun hq => huser (isUser_iff.mpr hq)
              simp [this]
            · intro anns heq
              cases heq
          · simp [turnElResults, hs, hu, huser, pushTurn]
          · simp [histRecOf, hs, hu, huser, pushTurn]
      · cases h

end StepLemmas

section LoopLemmas

variable {T I S TH : Type} {o : Models T I S TH}

lemma annotateLoop_ok_spec {ts : List PyVal} {acc res : List OutRec × ConvState}
    (h : annotateLoop o ts acc = .ok res) :
    (∃ recs, res.1 = acc.1 ++ recs ∧ List.Forall₂ (turnRel o) ts recs) ∧
    res.2.ment2ent = acc.2.ment2ent ++ m2eOf o ts ∧
    res.2.conv_hist_for_pe = acc.2.conv_hist_for_pe ++ ts.map (histRecOf o) := by
  induction ts generalizing acc with
  | nil =>
    rw [annotateLoop] at h
    cases h
    exact ⟨⟨[], by simp, List.Forall₂.nil⟩, by simp [m2eOf, allEl], by simp⟩
  | cons t ts ih =>
    rw [annotateLoop] at h
    split at h
    · cases h
    · rename_i acc1 hstep
      rcases annotateStep_ok hstep with ⟨rec, h1, hrel, hm, hh⟩
      rcases ih h with ⟨⟨recs, hr1, hr2⟩, hm2, hh2⟩
      refine ⟨⟨rec :: recs, ?_, List.Forall₂.cons hrel hr2⟩, ?_, ?_⟩
      · rw [hr1, h1]
        simp
      · rw [hm2, hm]
        simp [m2eOf, allEl]
      · rw [hh2, hh]
        simp

lemma annotate_ok_elim {st : ConvState} {conv : PyVal}
    {res : List OutRec × ConvState} (h : annotate o st conv = .ok res) :
    ∃ turns, conv = .list turns ∧ error_check conv = .ok () ∧
      annotateLoop o turns ([], ⟨[], []⟩) = .ok res := by
  simp only [annotate] at h
  split at h
  · cases h
  · rename_i u hec
    split at h
    · rename_i turns
      exact ⟨turns, rfl, by cases u; exact hec, h⟩
    · cases h

lemma forall2_exists_of_mem_right {α β : Type} {R : α → β → Prop}
    {l1 : List α} {l2 : List β} (h : List.Forall₂ R l1 l2) {b : β} (hb : b ∈ l2) :
    ∃ a, a ∈ l1 ∧ R a b := by
  induction h with
  | nil => cases hb
  | cons hr hrest ih =>
    rcases List.mem_cons.mp hb with rfl | hb2
    · exact ⟨_, List.mem_cons_self _ _, hr⟩
    · rcases ih hb2 with ⟨a, ha, hab⟩
      exact ⟨a, List.mem_cons_of_mem _ ha, hab⟩

lemma recInv_histRecOf (t : PyVal) : recInv (histRecOf o t) := by
  rw [histRecOf]
  split
  · rename_i spk utt hs hu
    split
    · rename_i huser
      refine ⟨?_, fun _ => rfl⟩
      intro hsys
      have hsys2 : spk = PyVal.str "SYSTEM" := hsys
      rw [isUser_iff.mp huser] at hsys2
      injection hsys2 with h2
      exact absurd h2 (by decide)
    · rename_i huser
      refine ⟨fun _ => ⟨rfl, rfl⟩, ?_⟩
      intro huser2
      exact absurd (isUser_iff.mpr huser2) huser
  · refine ⟨?_, ?_⟩ <;> intro h2
    · have h3 : PyVal.str "" = PyVal.str "SYSTEM" := h2
      injection h3 with h4
      exact absurd h4 (by decide)
    · have h3 : PyVal.str "" = PyVal.str "USER" := h2
      injection h3 with h4
      exact absurd h4 (by decide)

end LoopLemmas

section ErrorClassification

variable {T I S TH : Type} {o : Models T I S TH}

lemma checkTurn_ok_elim {t : PyVal} (hok : checkTurn t = .ok ()) :
    ∃ entries spk uttv, t = .dict entries ∧
      pyGet t "speaker" = .ok spk ∧ pyGet t "utterance" = .ok uttv ∧
      isUserOrSystem spk = true := by
  cases t with
  | dict entries =>
    rw [checkTurn] at hok
    split at hok
    · rename_i hk
      split at hok
      · rename_i spk hf
        split at hok
        · rename_i hsys
          rcases keySetOK_utterance hk with ⟨v, hv⟩
          exact ⟨entries, spk, v, rfl, by simp [pyGet, hf], by simp [pyGet, hv], hsys⟩
        · cases hok
      · cases hok
    · cases hok
  | str s => exact absurd hok (by simp [checkTurn])
  | int n => exact absurd hok (by simp [checkTurn])
  | list l => exact absurd hok (by simp [checkTurn])

lemma annotateStep_error {acc : List OutRec × ConvState} {t : PyVal} {e : PyErr}
    (hok : checkTurn t = .ok ()) (h : annotateStep o acc t = .error e) :
    isValidationError e = false := by
  rcases checkTurn_ok_elim hok with ⟨entries, spk, uttv, rfl, hs, hu, hsys⟩
  simp only [annotateStep, hu, hs, hsys, if_true] at h
  split at h
  · split at h
    · rename_i e2 hpe
      cases h
      rcases pe_error_cases hpe with hA | ⟨k, hk2⟩
      · rw [hA]; rfl
      · rw [hk2]; rfl
    · cases h
  · cases h

lemma annotateLoop_error {ts : List PyVal} {acc : List OutRec × ConvState} {e : PyErr}
    (hts : ∀ t ∈ ts, checkTurn t = .ok ()) (h : annotateLoop o ts acc = .error e) :
    isValidationError e = false := by
  induction ts generalizing acc with
  | nil =>
    rw [annotateLoop] at h
    cases h
  | cons t ts ih =>
    rw [annotateLoop] at h
    split at h
    · rename_i e2 hstep
      cases h
      exact annotateStep_error (hts t (List.mem_cons_self _ _)) hstep
    · rename_i acc1 hstep
      exact ih (fun x hx => hts x (List.mem_cons_of_mem _ hx)) h

lemma annotate_error_of_check {st : ConvState} {conv : PyVal} {e : PyErr}
    (hec : error_check conv = .error e) : annotate o st conv = .error e := by
  simp only [annotate, hec]

lemma annotate_eq_loop {st : ConvState} {turns : List PyVal}
    (hec : error_check (.list turns) = .ok ()) :
    annotate o st (.list turns) = annotateLoop o turns ([], ⟨[], []⟩) := by
  simp only [annotate, hec]

lemma error_check_invalid {conv : PyVal} (hv : validB conv = false) :
    ∃ e, error_check conv = .error e ∧ isValidationError e = true := by
  cases hec : error_check conv with
  | ok u =>
    cases u
    rw [error_check_ok_iff] at hec
    rw [hec] at hv
    cases hv
  | error e => exact ⟨e, rfl, error_check_error_validation hec⟩

end ErrorClassification

section LookupLemmas

lemma find?_map_pair (m : String) : ∀ (l : List EDResult),
    (l.map (fun r => (r.mention, r.entity))).find? (fun q => q.1 == m) =
      (l.find? (fun r => r.mention == m)).map (fun r => (r.mention, r.entity))
  | [] => rfl
  | r :: rs => by
    cases hr : r.mention == m <;>
      simp [List.find?, hr, find?_map_pair m rs]

lemma dictLookup_map_mention (l : List EDResult) (m : String) :
    dictLookup (l.map (fun r => (r.mention, r.entity))) m =
      (l.reverse.find? (fun r => r.mention == m)).map (fun r => r.entity) := by
  rw [dictLookup, ← List.map_reverse, find?_map_pair]
  cases l.reverse.find? (fun r => r.mention == m) <;> rfl

end LookupLemmas

/-! ## The claims -/

/-- **C1**: for every valid conversation on which `annotate` returns, the
output has the same length as the input, each output record carries the input
turn's speaker and utterance values, and the record has an `"annotations"`
key exactly when the turn's speaker is `"USER"` (SYSTEM turns carry no such
key). -/
theorem annotate_output_shape {T I S TH : Type} (o : Models T I S TH)
    (st : ConvState) (turns : List PyVal) (out : List OutRec) (st' : ConvState)
    (h : annotate o st (.list turns) = .ok (out, st')) :
    out.length = turns.length ∧ List.Forall₂ carriesTurn turns out := by
  rcases annotate_ok_elim h with ⟨turns2, heq, hec, hloop⟩
  obtain rfl : turns2 = turns := (PyVal.list.inj heq).symm
  rcases annotateLoop_ok_spec hloop with ⟨⟨recs, hr1, hr2⟩, _, _⟩
  have hout : out = recs := by simpa using hr1
  subst hout
  refine ⟨(List.Forall₂.length_eq hr2).symm, ?_⟩
  refine hr2.imp ?_
  rintro t r ⟨spk, utt, hs, hu, h1, h2, h3, h4, h5⟩
  exact ⟨spk, utt, hs, hu, h1, h2, h4⟩

/-- **C4**: `annotate` resets `conv_hist_for_pe` and `ment2ent` at the start
of every call, so its behaviour (result and final state) is independent of
the incoming object state: calling from any state equals calling from the
empty-history, empty-map state, and no history or mention-map state persists
across calls. -/
theorem annotate_resets_state {T I S TH : Type} (o : Models T I S TH)
    (st1 st2 : ConvState) (conv : PyVal) :
    annotate o st1 conv = annotate o st2 conv ∧
    annotate o st1 conv = annotate o ⟨[], []⟩ conv :=
  ⟨rfl, rfl⟩

/-- **C8**: `annotate` builds every output record freshly from the values
looked up in the input turn dicts; in this pure embedding the input
conversation value is passed untouched (the source constructs new dicts at
line 143 and never writes into `conv` or its turns), so each output record's
speaker and utterance are exactly the values still found in the unchanged
input turn. -/
theorem annotate_preserves_input {T I S TH : Type} (o : Models T I S TH)
    (st : ConvState) (turns : List PyVal) (out : List OutRec) (st' : ConvState)
    (h : annotate o st (.list turns) = .ok (out, st')) :
    List.Forall₂ (fun t (r : OutRec) =>
      pyGet t "speaker" = .ok r.speaker ∧ pyGet t "utterance" = .ok r.utterance)
      turns out := by
  rcases annotate_ok_elim h with ⟨turns2, heq, hec, hloop⟩
  obtain rfl : turns2 = turns := (PyVal.list.inj heq).symm
  rcases annotateLoop_ok_spec hloop with ⟨⟨recs, hr1, hr2⟩, _, _⟩
  have hout : out = recs := by simpa using hr1
  subst hout
  refine hr2.imp ?_
  rintro t r ⟨spk, utt, hs, hu, h1, h2, h3, h4, h5⟩
  rw [h1, h2]
  exact ⟨hs, hu⟩

/-- **C2 (amended)**: `annotate` raises a *validation* assertion failure
(bare assert or the speaker assert) iff the input fails the structural
checks: it is not a list, or contains a non-dict, or a dict whose key set is
not exactly speaker+utterance, or a speaker outside USER/SYSTEM.  On inputs
passing the checks no validation error is raised — though `_pe`'s single-PEM
assertion or a `KeyError` may still abort, which is why the original claim's
unrestricted "assertion failure iff" fails (see the counterexample). -/
theorem validation_error_iff_invalid {T I S TH : Type} (o : Models T I S TH)
    (st : ConvState) (conv : PyVal) :
    (∃ e, annotate o st conv = .error e ∧ isValidationError e = true) ↔
      validB conv = false := by
  constructor
  · rintro ⟨e, he, hval⟩
    by_contra hvb
    have hvb2 : validB conv = true := by
      cases hx : validB conv
      · exact absurd hx hvb
      · rfl
    cases conv with
    | list turns =>
      have hec : error_check (.list turns) = .ok () := error_check_ok_iff.mpr hvb2
      rw [annotate_eq_loop hec] at he
      have hts : ∀ t ∈ turns, checkTurn t = .ok () := by
        intro t ht
        apply checkTurn_ok_iff.mpr
        rw [validB] at hvb2
        exact List.all_eq_true.mp hvb2 t ht
      have hbad := annotateLoop_error hts he
      rw [hval] at hbad
      cases hbad
    | str s => simp [validB] at hvb2
    | int n => simp [validB] at hvb2
    | dict d => simp [validB] at hvb2
  · intro hv
    rcases error_check_invalid hv with ⟨e, hec, hval⟩
    exact ⟨e, annotate_error_of_check hec, hval⟩

/-- **C2 (counterexample to the original claim)**: a structurally valid
conversation on which `annotate` nevertheless aborts with an assertion
failure — `_pe`'s single-PEM assertion — because the preprocessor yields no
scorer input for the detected personal mention.  Hence "assertion failure iff
input invalid" is false as stated. -/
theorem validation_iff_counterexample :
    validB convU = true ∧
    annotate oPemAssert ⟨[], []⟩ convU =
      .error (.assertionError (some .singlePem)) :=
  ⟨rfl, rfl⟩

/-- **C3**: every `"annotations"` list attached by `annotate` is the
`_el` results followed by the `_pe` results for that turn's utterance
(`_pe` run on the state `_el` produced), with no other reordering. -/
theorem annotations_el_then_pe {T I S TH : Type} (o : Models T I S TH)
    (st : ConvState) (conv : PyVal) (out : List OutRec) (st' : ConvState)
    (h : annotate o st conv = .ok (out, st')) (r : OutRec) (hr : r ∈ out)
    (anns : List AnnRec) (ha : r.annotations = some anns) :
    ∃ stA elAnns stB peAnns stC, el o r.utterance stA = (elAnns, stB) ∧
      pe o r.utterance stB = .ok (peAnns, stC) ∧ anns = elAnns ++ peAnns := by
  rcases annotate_ok_elim h with ⟨turns, rfl, hec, hloop⟩
  rcases annotateLoop_ok_spec hloop with ⟨⟨recs, hr1, hr2⟩, _, _⟩
  have hout : out = recs := by simpa using hr1
  subst hout
  rcases forall2_exists_of_mem_right hr2 hr with ⟨t, ht, htr⟩
  rcases htr with ⟨spk, utt, hs, hu, hsp, hut, hor, hiff, hprov⟩
  rcases hprov anns ha with ⟨stA, elAnns, stB, peAnns, stC, h1, h2, h3⟩
  exact ⟨stA, elAnns, stB, peAnns, stC, by rw [hut]; exact h1,
    by rw [hut]; exact h2, h3⟩

/-- **C5**: the final `ment2ent` of a successful `annotate` call is exactly
the ordered list of `(mention, entity)` writes of all USER turns, and its
lookup returns, for every mention text, the entity of the most recent
(latest-written) disambiguation result carrying it — last write wins. -/
theorem ment2ent_last_write_wins {T I S TH : Type} (o : Models T I S TH)
    (st : ConvState) (turns : List PyVal) (out : List OutRec) (st' : ConvState)
    (h : annotate o st (.list turns) = .ok (out, st')) :
    st'.ment2ent = m2eOf o turns ∧
    ∀ m, dictLookup st'.ment2ent m =
      ((allEl o turns).reverse.find? (fun r => r.mention == m)).map
        (fun r => r.entity) := by
  rcases annotate_ok_elim h with ⟨turns2, heq, hec, hloop⟩
  rw [PyVal.list.inj heq]
  rcases annotateLoop_ok_spec hloop with ⟨_, hm, _⟩
  have hm2 : st'.ment2ent = m2eOf o turns2 := by simpa using hm
  exact ⟨hm2, fun m => by rw [hm2, m2eOf, dictLookup_map_mention]⟩

/-- **C9**: after a successful `annotate` call (and inductively at every turn
boundary of its loop), every history record satisfies: SYSTEM records have
neither a `"mentions"` nor a `"pems"` key, and USER records have `"pems"`
reset to the empty list (line 109). -/
theorem hist_pems_cleared {T I S TH : Type} (o : Models T I S TH) :
    (∀ (ts : List PyVal) (acc res : List OutRec × ConvState),
        annotateLoop o ts acc = .ok res →
        (∀ r ∈ acc.2.conv_hist_for_pe, recInv r) →
        ∀ r ∈ res.2.conv_hist_for_pe, recInv r) ∧
    (∀ (st : ConvState) (conv : PyVal) (out : List OutRec) (st' : ConvState),
        annotate o st conv = .ok (out, st') →
        ∀ r ∈ st'.conv_hist_for_pe, recInv r) := by
  have hloopInv : ∀ (ts : List PyVal) (acc res : List OutRec × ConvState),
      annotateLoop o ts acc = .ok res →
      (∀ r ∈ acc.2.conv_hist_for_pe, recInv r) →
      ∀ r ∈ res.2.conv_hist_for_pe, recInv r := by
    intro ts acc res hl hinv r hr
    rcases annotateLoop_ok_spec hl with ⟨_, _, hh⟩
    rw [hh] at hr
    rcases List.mem_append.mp hr with h1 | h2
    · exact hinv r h1
    · rcases List.mem_map.mp h2 with ⟨t, ht, rfl⟩
      exact recInv_histRecOf t
  refine ⟨hloopInv, ?_⟩
  intro st conv out st' h r hr
  rcases annotate_ok_elim h with ⟨turns, rfl, hec, hloop⟩
  exact hloopInv turns ([], ⟨[], []⟩) (out, st') hloop
    (by intro x hx; cases hx) r hr

/-- **C6**: `_pe` fires its "one target PEM at a time" assertion (aborting)
exactly when, for some detected personal mention, the preprocessed input does
not contain exactly one item; the history each preprocessing call sees
(`peInput`) has the last record's `"pems"` set to exactly that single
mention.  Under the assertion, the subsequent `input_data[0]` cannot fail
(the model takes the sole element of a singleton match). -/
theorem pe_single_target_assert {T I S TH : Type} (o : Models T I S TH)
    (st : ConvState) (utt : PyVal) (hne : st.conv_hist_for_pe ≠ []) :
    (pe o utt st = .error (.assertionError (some .singlePem)) ↔
      ∃ pr ∈ o.pemDetector utt, (peInput o st.conv_hist_for_pe pr).length ≠ 1) ∧
    (∀ pr : PEMResult,
      (setLastPems (some [pr.pem]) st.conv_hist_for_pe).getLast?.map
          HistRecord.pems = some (some [pr.pem])) :=
  ⟨pe_singlePem_iff, fun pr => getLast?_setLastPems _ _ hne⟩

/-- **C7**: every produced annotation is a 4-field record
`(start, length, mention, entity)`: explicit annotations are the four-field
prefixes of the disambiguation results, and each personal annotation carries
the personal mention's own offsets and text together with the entity found in
the mention map for the accepted antecedent mention. -/
theorem annotation_four_fields {T I S TH : Type} (o : Models T I S TH)
    (utt : PyVal) (st : ConvState) :
    ((el o utt st).1 =
      (elResults o utt).map (fun r => ⟨r.start, r.len, r.mention, r.entity⟩)) ∧
    (∀ ret st', pe o utt st = .ok (ret, st') → ∀ a ∈ ret,
      ∃ (r : PEOutput) (pr : PEMResult) (ent : String),
        pem2result (o.pemDetector utt) r.personal_entity_mention = some pr ∧
        dictLookup st.ment2ent r.mention = some ent ∧
        a = ⟨pr.start, pr.len, pr.pem, ent⟩) := by
  refine ⟨rfl, ?_⟩
  intro ret st' hpe a ha
  rcases pe_ok_resolve hpe with ⟨outputs, h1, hl, hres⟩
  have hf := peResolve_ok_forall2 hres
  rcases forall2_exists_of_mem_right hf ha with ⟨r, hrmem, pr, ent, h2, h3, h4⟩
  exact ⟨r, pr, ent, h2, h3, h4⟩

/-- **C10**: if post-processing accepts a result whose antecedent mention is
not in the mention map, or whose personal mention is absent from the
detector's results for the current utterance, `_pe` (and hence `annotate`,
which propagates the error) raises a `KeyError` instead of skipping the
result or returning a partial annotation list. -/
theorem pe_missing_key_raises {T I S TH : Type} (o : Models T I S TH)
    (utt : PyVal) (st : ConvState) (outputs : List PEOutput)
    (h1 : List HistRecord)
    (hl : peLoop o (o.pemDetector utt) st.conv_hist_for_pe [] = .ok (outputs, h1))
    (hmiss : ∃ r ∈ outputs,
      pem2result (o.pemDetector utt) r.personal_entity_mention = none ∨
      dictLookup st.ment2ent r.mention = none) :
    ∃ k, pe o utt st = .error (.keyError k) := by
  rcases peResolve_error_iff.mpr hmiss with ⟨e, he⟩
  rcases peResolve_error_keyError he with ⟨k, rfl⟩
  exact ⟨k, pe_of_resolve_error hl he⟩

/-! ## Witnesses: the claim theorems applied at concrete runs -/

/-- Witness for C1: a concrete two-turn run of `annotate` (empty-result
models) satisfying the output-shape property. -/
theorem annotate_output_shape_witness :
    ([⟨.str "USER", .str "hi", some []⟩,
      ⟨.str "SYSTEM", .str "ok", none⟩] : List OutRec).length =
      ([.dict [("speaker", .str "USER"), ("utterance", .str "hi")],
        .dict [("speaker", .str "SYSTEM"), ("utterance", .str "ok")]] :
          List PyVal).length ∧
    List.Forall₂ carriesTurn
      [.dict [("speaker", .str "USER"), ("utterance", .str "hi")],
       .dict [("speaker", .str "SYSTEM"), ("utterance", .str "ok")]]
      [⟨.str "USER", .str "hi", some []⟩, ⟨.str "SYSTEM", .str "ok", none⟩] :=
  annotate_output_shape oEmpty ⟨[], []⟩
    [.dict [("speaker", .str "USER"), ("utterance", .str "hi")],
     .dict [("speaker", .str "SYSTEM"), ("utterance", .str "ok")]]
    [⟨.str "USER", .str "hi", some []⟩, ⟨.str "SYSTEM", .str "ok", none⟩]
    ⟨[⟨.str "USER", .str "hi", some [], some []⟩,
      ⟨.str "SYSTEM", .str "ok", none, none⟩], []⟩
    rfl

/-- Witness for C8: in the same concrete run, every output record's fields
are the values looked up in the corresponding unchanged input turn. -/
theorem annotate_preserves_input_witness :
    List.Forall₂ (fun t (r : OutRec) =>
      pyGet t "speaker" = .ok r.speaker ∧ pyGet t "utterance" = .ok r.utterance)
      [.dict [("speaker", .str "USER"), ("utterance", .str "hi")],
       .dict [("speaker", .str "SYSTEM"), ("utterance", .str "ok")]]
      [⟨.str "USER", .str "hi", some []⟩, ⟨.str "SYSTEM", .str "ok", none⟩] :=
  annotate_preserves_input oEmpty ⟨[], []⟩
    [.dict [("speaker", .str "USER"), ("utterance", .str "hi")],
     .dict [("speaker", .str "SYSTEM"), ("utterance", .str "ok")]]
    [⟨.str "USER", .str "hi", some []⟩, ⟨.str "SYSTEM", .str "ok", none⟩]
    ⟨[⟨.str "USER", .str "hi", some [], some []⟩,
      ⟨.str "SYSTEM", .str "ok", none, none⟩], []⟩
    rfl

/-- Witness for C3: the concrete USER record's annotations decompose as
`_el` results followed by `_pe` results. -/
theorem annotations_el_then_pe_witness :
    ∃ stA elAnns stB peAnns stC,
      el oEmpty (PyVal.str "hi") stA = (elAnns, stB) ∧
      pe oEmpty (PyVal.str "hi") stB = .ok (peAnns, stC) ∧
      ([] : List AnnRec) = elAnns ++ peAnns :=
  annotations_el_then_pe oEmpty ⟨[], []⟩ convW
    [⟨.str "USER", .str "hi", some []⟩, ⟨.str "SYSTEM", .str "ok", none⟩]
    ⟨[⟨.str "USER", .str "hi", some [], some []⟩,
      ⟨.str "SYSTEM", .str "ok", none, none⟩], []⟩
    rfl
    ⟨.str "USER", .str "hi", some []⟩ (List.mem_cons_self _ _)
    [] rfl

/-- Witness for C5: with a disambiguator that returns `"m" ↦ E1` then
`"m" ↦ E2`, the final map holds both writes in order and lookup returns the
later entity `E2`. -/
theorem ment2ent_last_write_wins_witness :
    ([("m", "E1"), ("m", "E2")] : List (String × String)) =
      m2eOf oDup [.dict [("speaker", .str "USER"), ("utterance", .str "hi")]] ∧
    dictLookup [("m", "E1"), ("m", "E2")] "m" = some "E2" := by
  have h := ment2ent_last_write_wins oDup ⟨[], []⟩
      [.dict [("speaker", .str "USER"), ("utterance", .str "hi")]]
      [⟨.str "USER", .str "hi", some [⟨0, 1, "m", "E1"⟩, ⟨2, 1, "m", "E2"⟩]⟩]
      ⟨[⟨.str "USER", .str "hi", some ["m", "m"], some []⟩],
        [("m", "E1"), ("m", "E2")]⟩ rfl
  refine ⟨h.1, ?_⟩
  have h2 := h.2 "m"
  rw [h2]
  rfl

/-- Witness for C9: the history records of the concrete run satisfy the
invariant — USER record with `pems = some []`, SYSTEM record with neither
key. -/
theorem hist_pems_cleared_witness :
    recInv ⟨.str "USER", .str "hi", some [], some []⟩ ∧
    recInv ⟨.str "SYSTEM", .str "ok", none, none⟩ := by
  have h := (hist_pems_cleared oEmpty).2 ⟨[], []⟩ convW
      [⟨.str "USER", .str "hi", some []⟩, ⟨.str "SYSTEM", .str "ok", none⟩]
      ⟨[⟨.str "USER", .str "hi", some [], some []⟩,
        ⟨.str "SYSTEM", .str "ok", none, none⟩], []⟩ rfl
  exact ⟨h _ (List.mem_cons_self _ _),
    h _ (List.mem_cons_of_mem _ (List.mem_cons_self _ _))⟩

/-- Witness for C6: with one detected PEM and a preprocessor yielding no
input, `_pe` aborts with the single-PEM assertion, and the history handed to
the preprocessor has `pems` set to exactly that mention. -/
theorem pe_single_target_assert_witness :
    pe oPemAssert (PyVal.str "hi")
        ⟨[⟨.str "USER", .str "hi", none, none⟩], []⟩ =
      .error (.assertionError (some .singlePem)) ∧
    (setLastPems (some ["my"]) [⟨.str "USER", .str "hi", none, none⟩]).getLast?.map
        HistRecord.pems = some (some ["my"]) := by
  have h := pe_single_target_assert oPemAssert
      ⟨[⟨.str "USER", .str "hi", none, none⟩], []⟩ (.str "hi") (by simp)
  exact ⟨h.1.mpr ⟨⟨0, 2, "my"⟩, List.mem_cons_self _ _, by decide⟩,
    h.2 ⟨0, 2, "my"⟩⟩

/-- Witness for C7: the concrete personal annotation `[0, 2, "it", DOG_ENT]`
carries the pem's own offsets and text and the mapped entity. -/
theorem annotation_four_fields_witness :
    ∃ (r : PEOutput) (pr : PEMResult) (ent : String),
      pem2result (oPe.pemDetector (.str "hi")) r.personal_entity_mention = some pr ∧
      dictLookup [("dog", "DOG_ENT")] r.mention = some ent ∧
      (⟨0, 2, "it", "DOG_ENT"⟩ : AnnRec) = ⟨pr.start, pr.len, pr.pem, ent⟩ :=
  (annotation_four_fields oPe (.str "hi")
      ⟨[⟨.str "USER", .str "hi", none, none⟩], [("dog", "DOG_ENT")]⟩).2
    [⟨0, 2, "it", "DOG_ENT"⟩]
    ⟨[⟨.str "USER", .str "hi", none, some []⟩], [("dog", "DOG_ENT")]⟩ rfl
    ⟨0, 2, "it", "DOG_ENT"⟩ (List.mem_cons_self _ _)

/-- Witness for C10: with the mention map empty, the accepted antecedent
`"dog"` is missing and `_pe` raises `KeyError`. -/
theorem pe_missing_key_raises_witness :
    ∃ k, pe oPe (PyVal.str "hi") ⟨[⟨.str "USER", .str "hi", none, none⟩], []⟩ =
      .error (.keyError k) :=
  pe_missing_key_raises oPe (.str "hi")
    ⟨[⟨.str "USER", .str "hi", none, none⟩], []⟩
    [⟨"it", "dog"⟩]
    [⟨.str "USER", .str "hi", none, some ["it"]⟩]
    rfl
    ⟨⟨"it", "dog"⟩, List.mem_cons_self _ _, Or.inr rfl⟩
